import Mathlib

/-!
# Verification of the question-loading and quiz-state engine
# of the Electron quiz application (renderer process)

This development is a shallow embedding, in Lean 4, of the renderer-side
engine of the quiz application: CSV ingestion and validation
(`loadQuestions`), the group index (`populateGroupDropdown`), the quiz
state transitions (`checkAnswer`, the group-filter change handler, the
Previous/Next navigation handlers, the answer-completion timer), and the
dialog coordinator (`selectCSVFile`).

Modelling conventions:

* JavaScript strings are Lean `String`s.  The JavaScript string operations
  used by the code (`trim`, `toUpperCase`, `split`, `includes`) are
  modelled by structurally recursive functions over the underlying
  character list, so that every definition evaluates by `decide`/`rfl`.
* The `csv-parser` collaborator is external to the repository; following
  the specification of the CSV Record Parser it is modelled as producing,
  for each input line, the raw field mapping obtained by splitting the
  line on the configured delimiter (positional headers
  `questionText, option1..4, correctAnswer, group`); a missing field and
  an empty field are both falsy on the JavaScript side and are modelled
  by the empty string.
* Array entries aliased between `questions` (the active, possibly
  filtered array) and `allQuestions` are modelled by a store of question
  records (`store`, with a parallel `answered` list for the mutable
  `userAnswered` property) and an `active` list of indices into the
  store, so that a mutation performed through the active array is
  observable through `allQuestions`, exactly as in JavaScript.
* The single-threaded asynchronous control flow of `selectCSVFile` is
  modelled by splitting the function at its unique `await`: the
  synchronous prefix (`selectBegin`) and the continuation that runs when
  the file-picker promise settles (`selectResume`).
* `module.exports.currentQuestionIndex` is exported once, with value 0,
  and never reassigned, while the renderer always has `module` defined
  (node integration is enabled); the accessor `getCurrentQuestionIndex()`
  used by `checkAnswer` therefore returns the constant 0
  (`exportedQuestionIndex`), decoupled from the live navigation index.
-/

namespace QuizApp

/-! ## JavaScript string primitives, modelled over character lists -/

/-- Character-list version of JavaScript `String.prototype.trim`:
drop whitespace from both ends. -/
def trimChars (l : List Char) : List Char :=
  ((l.dropWhile Char.isWhitespace).reverse.dropWhile Char.isWhitespace).reverse

/-- Model of JavaScript `s.trim()`. -/
def jsTrim (s : String) : String := ⟨trimChars s.data⟩

/-- Model of JavaScript `s.toUpperCase()` (on the ASCII letters used here). -/
def jsToUpperCase (s : String) : String := ⟨s.data.map Char.toUpper⟩

/-- Model of JavaScript `s.includes(c)` for a one-character needle. -/
def jsIncludesChar (s : String) (c : Char) : Bool := s.data.contains c

/-- Split a character list on a separator character; JavaScript
`s.split(sep)` semantics (an empty input yields one empty field). -/
def splitChars (sep : Char) : List Char → List (List Char)
  | [] => [[]]
  | c :: rest =>
    let r := splitChars sep rest
    if c = sep then [] :: r
    else
      match r with
      | [] => [[c]]
      | f :: fs => (c :: f) :: fs

/-- Model of JavaScript-style string splitting on a one-character separator. -/
def jsSplit (s : String) (sep : Char) : List String :=
  (splitChars sep s.data).map String.mk

/-! ## The Question entity (renderer.js `loadQuestions` data handler) -/

/-- The valid correct-answer letters (`validAnswers` in renderer.js). -/
def validAnswers : List String := ["A", "B", "C", "D"]

/-- A validated, normalized quiz question as built by the `data` handler
of `loadQuestions` (the mutable `userAnswered` property lives in the
quiz state, not here). -/
structure Question where
  questionText : String
  options : List String
  correctAnswer : String
  group : String
deriving DecidableEq, Repr

/-- Field `i` of a raw CSV record as seen by the validation code:
`row.questionText`, `row.option1`, … are the positional fields delivered
by the parser; a missing field (`undefined`) and an empty field are both
falsy, so both are represented by `""`. -/
def rawField (row : List String) (i : Nat) : String := (row.get? i).getD ""

/-- The `data` handler of `loadQuestions`: reject the row when any of the
six required fields is falsy; standardize the correct answer with
`trim().toUpperCase()` and reject letters outside `validAnswers`;
otherwise build the normalized question, with `group` defaulting to
`"All"` when the group field is falsy. -/
def parseRow (row : List String) : Option Question :=
  if (rawField row 0).isEmpty || (rawField row 1).isEmpty ||
     (rawField row 2).isEmpty || (rawField row 3).isEmpty ||
     (rawField row 4).isEmpty || (rawField row 5).isEmpty then
    none
  else
    let correct := jsToUpperCase (jsTrim (rawField row 5))
    if validAnswers.contains correct then
      some { questionText := jsTrim (rawField row 0)
           , options := [jsTrim (rawField row 1), jsTrim (rawField row 2),
                         jsTrim (rawField row 3), jsTrim (rawField row 4)]
           , correctAnswer := correct
           , group := if (rawField row 6).isEmpty then "All"
                      else jsTrim (rawField row 6) }
    else
      none

/-- The accumulation of valid questions over the streamed rows
(`questions.push(...)` inside the `data` handler, run once per row). -/
def loadRows (rows : List (List String)) : List Question :=
  rows.foldl (fun acc row =>
    match parseRow row with
    | some q => acc ++ [q]
    | none => acc) []

/-! ## Separator auto-detection and the whole-file parse -/

/-- `let separator = fileContent.includes(';') ? ';' : ','`. -/
def separatorOf (content : String) : Char :=
  if jsIncludesChar content ';' then ';' else ','

/-- The lines of the CSV file as streamed to the parser. -/
def csvLines (content : String) : List String := jsSplit content '\n'

/-- The raw records produced by the CSV Record Parser for a file:
every line is split on the per-file auto-detected separator. -/
def csvRows (content : String) : List (List String) :=
  (csvLines content).map (fun line => jsSplit line (separatorOf content))

/-- The full pipeline from raw file content to the loaded question list. -/
def parseCSV (content : String) : List Question := loadRows (csvRows content)

/-! ## The quiz state

`questions` (the active array) and `allQuestions` share their entries in
JavaScript; the model therefore keeps one `store` of question records
(together with the mutable `userAnswered` property of each record, in the
parallel list `answered`) and represents the active array as the list of
store indices of its entries. -/

/-- The renderer-module state: `allQuestions` (`store` plus the
`userAnswered` marks), the active `questions` array (as store indices),
`currentQuestionIndex`, the two score counters, and whether the answer
timer's interval is active (`timerInterval !== null`). -/
structure QState where
  store : List Question
  answered : List Bool
  active : List Nat
  currentIndex : Nat
  correctCount : Nat
  incorrectCount : Nat
  timerRunning : Bool
deriving DecidableEq, Repr

/-- The module state right after loading the renderer: empty arrays,
zero counters, no timer. -/
def initState : QState :=
  { store := [], answered := [], active := [], currentIndex := 0
  , correctCount := 0, incorrectCount := 0, timerRunning := false }

/-- The store indices of the entries of `l` satisfying `p`, in order,
starting the position count at `i`: this realizes a JavaScript
`filter` over an array of shared objects (the resulting array holds
references into the original one). -/
def refsWhere (p : Question → Bool) : List Question → Nat → List Nat
  | [], _ => []
  | q :: rest, i =>
    if p q then i :: refsWhere p rest (i + 1)
    else refsWhere p rest (i + 1)

/-- The sequence of question records the active array currently denotes. -/
def activeList (σ : QState) : List Question :=
  σ.active.filterMap (fun r => σ.store.get? r)

/-- The state-clearing prologue of `loadQuestions`: `questions.splice`,
`allQuestions = []`, index and counters zeroed.  The timer is not
touched there. -/
def clearedState (σ : QState) : QState :=
  { σ with store := [], answered := [], active := [], currentIndex := 0
         , correctCount := 0, incorrectCount := 0 }

/-- The state installed by the `end` handler of `loadQuestions` for a
non-empty valid question list `qs`: `allQuestions = questions.slice()`
(aliased entries, hence the identity reference list), fresh
`userAnswered` marks, and `displayQuestion(0)` starting the timer. -/
def postLoad (qs : List Question) : QState :=
  { store := qs, answered := qs.map (fun _ => false)
  , active := refsWhere (fun _ => true) qs 0
  , currentIndex := 0, correctCount := 0, incorrectCount := 0
  , timerRunning := true }

/-- `loadQuestions`: clear the previous state, then read the file; a read
failure rejects the promise with the underlying error (`reject(err)`),
an empty valid-row set resolves with the empty list without starting the
timer, and a non-empty one installs the new set, shows question 0 and
starts the timer.  The file read is `Except.error e` when
`fs.readFileSync` throws `e`, `Except.ok content` otherwise. -/
def loadQuestions (σ : QState) (file : Except String String) :
    QState × Except String (List Question) :=
  let σc := clearedState σ
  match file with
  | .error e => (σc, .error e)
  | .ok content =>
    let qs := parseCSV content
    if qs.isEmpty then (σc, .ok [])
    else (postLoad qs, .ok qs)

/-- The value of `getCurrentQuestionIndex()` in the application:
the helper returns `module.exports.currentQuestionIndex` whenever
`module` is defined, and it always is in the app (the renderer runs
with node integration, so `module` is a page global).  That exported
value is a copy of `currentQuestionIndex` taken once, at module
initialization, when it is 0, and it is never reassigned anywhere in
the module — the navigation handlers update only the local binding.
`checkAnswer` therefore always operates on index 0. -/
def exportedQuestionIndex : Nat := 0

/-- `checkAnswer(selected, correct)`: increment exactly one score counter
according to `selected === correct`, set `userAnswered` on the question
at `getCurrentQuestionIndex()` — the stale exported index 0, not the
index the user navigated to — and stop the timer when every question of
the active array is answered
(`qs.length > 0 && qs.every(q => q.userAnswered)`).  `getQuestions()`
returns the exported `questions` reference, which is the live active
array (it is spliced in place, never reassigned).  The DOM effects
(button styling, floating message, counter display) have no state
content.  The active array is non-empty whenever the call is reachable
through the UI; the empty branch is never exercised by the theorems
below. -/
def checkAnswer (σ : QState) (selected correct : String) : QState :=
  let σ1 := if selected = correct
            then { σ with correctCount := σ.correctCount + 1 }
            else { σ with incorrectCount := σ.incorrectCount + 1 }
  match σ.active.get? exportedQuestionIndex with
  | none => σ1
  | some r =>
    let ans := σ1.answered.set r true
    let σ2 := { σ1 with answered := ans }
    if σ2.active.length > 0 && σ2.active.all (fun r2 => ans.getD r2 false)
    then { σ2 with timerRunning := false }
    else σ2

/-- The question record currently displayed: `displayQuestion` renders
`questions[index]` at the live, navigable index. -/
def currentQuestion (σ : QState) : Option Question :=
  (σ.active.get? σ.currentIndex).bind (fun r => σ.store.get? r)

/-- Clicking an option button of the displayed question: the button's
listener calls `checkAnswer(letters[i], question.correctAnswer)` with
the *displayed* question's correct answer (captured at render time),
while `checkAnswer` itself marks the question at the stale exported
index. -/
def answerCurrent (σ : QState) (selected : String) : QState :=
  match currentQuestion σ with
  | some q => checkAnswer σ selected q.correctAnswer
  | none => σ

/-- The `change` handler installed by `populateGroupDropdown`: splice the
active array to the full `allQuestions` for the sentinel label, or to
the matching subarray otherwise; reset index and score; re-render and
restart the timer (`startTimer()` is called unconditionally). -/
def applyGroupFilter (σ : QState) (label : String) : QState :=
  let newActive :=
    if label = "All" then refsWhere (fun _ => true) σ.store 0
    else refsWhere (fun q => q.group == label) σ.store 0
  { σ with active := newActive, currentIndex := 0
         , correctCount := 0, incorrectCount := 0, timerRunning := true }

/-- The quiz interaction events: clicking an option button of the
displayed question, and the Next/Previous navigation buttons. -/
inductive Ev where
  | ans (selected : String)
  | next
  | prev
deriving DecidableEq, Repr

/-- One interaction step: option click, or the bounded index moves of the
`nextBtn`/`prevBtn` listeners.  Both navigation handlers call
`displayQuestion(currentQuestionIndex)` after moving, and
`displayQuestion` ends with `if (index === 0) startTimer()`: after the
Next handler's increment the index is at least 1, so only the Previous
handler can reach that restart — when its decrement lands on index 0
(and the index is in bounds, or `displayQuestion` returns early). -/
def stepEv (σ : QState) : Ev → QState
  | .ans sel => answerCurrent σ sel
  | .next =>
    if σ.currentIndex < σ.active.length - 1
    then { σ with currentIndex := σ.currentIndex + 1 } else σ
  | .prev =>
    if 0 < σ.currentIndex then
      let σ2 := { σ with currentIndex := σ.currentIndex - 1 }
      if σ2.currentIndex < σ2.active.length ∧ σ2.currentIndex = 0
      then { σ2 with timerRunning := true } else σ2
    else σ

/-- Run a sequence of interaction events. -/
def run (σ : QState) (evs : List Ev) : QState := evs.foldl stepEv σ

/-- Number of `ans` events (calls to `checkAnswer`) in a trace. -/
def countAns (evs : List Ev) : Nat :=
  evs.countP (fun e => match e with | .ans _ => true | _ => false)

/-! ## The group index (`populateGroupDropdown`) -/

/-- The dropdown labels built by `populateGroupDropdown`: the `"All"`
option first, then the insertion-ordered `Set` of the truthy,
non-`"All"` group values of the given array. -/
def groupIndex (qs : List Question) : List String :=
  "All" :: qs.foldl (fun acc q =>
    if !q.group.isEmpty && q.group != "All" && !acc.contains q.group
    then acc ++ [q.group] else acc) []

/-! ## The dialog coordinator (`selectCSVFile`) -/

/-- The observable dialog-coordination state: the `state.isDialogOpen`
flag and how many times the file-picker collaborator
(`ipcRenderer.invoke('select-csv-file')`) has been invoked. -/
structure DialogWorld where
  isDialogOpen : Bool
  invokeCount : Nat
deriving DecidableEq, Repr

/-- A settlement of the file-picker promise: a path (or `none` for the
`null` returned on cancellation), or a rejection. -/
inductive PickOutcome where
  | ok (path : Option String)
  | err (msg : String)
deriving DecidableEq, Repr

/-- The synchronous prefix of `selectCSVFile` up to its `await`: return
immediately when `state.isDialogOpen` is set, otherwise set the flag and
invoke the collaborator.  The returned Boolean says whether the
collaborator was invoked. -/
def selectBegin (w : DialogWorld) : DialogWorld × Bool :=
  if w.isDialogOpen then (w, false)
  else ({ isDialogOpen := true, invokeCount := w.invokeCount + 1 }, true)

/-- The continuation of `selectCSVFile` after the collaborator settles:
on a truthy path, `loadQuestions(filePath)` is started but not awaited
(the returned `Option String` is that pending load); an error is logged
and swallowed; in every case the `finally` block clears the flag and the
function returns normally. -/
def selectResume (w : DialogWorld) (outcome : PickOutcome) :
    DialogWorld × Option String :=
  let pendingLoad :=
    match outcome with
    | .ok (some p) => if p = "" then none else some p
    | .ok none => none
    | .err _ => none
  ({ w with isDialogOpen := false }, pendingLoad)

/-! ## Claim-side definitions

These definitions transcribe the specification's wording, to be compared
with the definitions above that embed the code. -/

/-- The row-rejection condition as the specification words it: one of
the first six fields is missing or empty after trimming, or the trimmed
upper-cased correct-answer letter is not among A–D. -/
def claimRejects (row : List String) : Bool :=
  (List.range 6).any (fun i =>
    match row.get? i with
    | some s => (jsTrim s).isEmpty
    | none => true)
  || !(validAnswers.contains (jsToUpperCase (jsTrim (rawField row 5))))

/-- The accepted-row normalization as the specification words it: all
string fields trimmed, the correct answer upper-cased, and the group
equal to the trimmed group field, with `"All"` only when the field is
absent. -/
def claimNormalize (row : List String) : Question :=
  { questionText := jsTrim (rawField row 0)
  , options := [jsTrim (rawField row 1), jsTrim (rawField row 2),
                jsTrim (rawField row 3), jsTrim (rawField row 4)]
  , correctAnswer := jsToUpperCase (jsTrim (rawField row 5))
  , group := match row.get? 6 with
             | some g => jsTrim g
             | none => "All" }

/-- The per-row validator exactly as the specification describes it. -/
def claimParse (row : List String) : Option Question :=
  if claimRejects row then none else some (claimNormalize row)

/-- The per-row validator as the code actually behaves (the amended
description): a row is rejected when one of the first six fields is
missing or empty as delivered by the parser (before trimming), or when
the trimmed upper-cased letter is invalid; the group of an accepted row
is the trimmed group field when the raw field is non-empty, and `"All"`
when the field is missing or empty. -/
def amendedParse (row : List String) : Option Question :=
  if (List.range 6).any (fun i => (rawField row i).isEmpty) then none
  else if validAnswers.contains (jsToUpperCase (jsTrim (rawField row 5))) then
    some { questionText := jsTrim (rawField row 0)
         , options := [jsTrim (rawField row 1), jsTrim (rawField row 2),
                       jsTrim (rawField row 3), jsTrim (rawField row 4)]
         , correctAnswer := jsToUpperCase (jsTrim (rawField row 5))
         , group := if (rawField row 6).isEmpty then "All"
                    else jsTrim (rawField row 6) }
  else none

/-- Distinct labels in first-seen order: keep the head, drop its later
occurrences, recurse.  This is the specification's description of the
group-index tail. -/
def firstSeen : List String → List String
  | [] => []
  | g :: rest => g :: firstSeen (rest.filter (fun x => x != g))
termination_by l => l.length
decreasing_by
  simp only [List.length_cons]
  exact Nat.lt_succ_of_le (List.length_filter_le _ _)

/-- One insertion into an insertion-ordered duplicate-free label list
(the behavior of `Set.prototype.add` followed by in-order traversal). -/
def addLabel (acc : List String) (g : String) : List String :=
  if acc.contains g then acc else acc ++ [g]

/-- States reachable through the UI after a successful non-empty load:
the active array is non-empty, its entries reference the store, and the
current index is in bounds.  (`checkAnswer` is only reachable from a
displayed question, so these bounds hold at every call site.) -/
def Inv (σ : QState) : Prop :=
  (∀ r ∈ σ.active, r < σ.store.length) ∧
  σ.active ≠ [] ∧
  σ.currentIndex < σ.active.length

/-- The combined invariant of the interaction traces started by a
non-empty load: the store and the active reference list are the ones the
load installed, the navigation index is in bounds, only the first
question's mark is ever set (because `checkAnswer` scores through the
stale exported index), and the timer is stopped exactly when every
active question carries its mark. -/
def TraceInv (qs : List Question) (σ : QState) : Prop :=
  σ.store = qs ∧
  σ.active = refsWhere (fun _ => true) qs 0 ∧
  σ.currentIndex < σ.active.length ∧
  (∀ r, σ.answered.getD r false = true → r = 0) ∧
  (σ.timerRunning = false ↔
    ∀ r ∈ σ.active, σ.answered.getD r false = true)

/-- A concrete loaded question, for the concrete scenarios below. -/
def qEx : Question := ⟨"Q", ["a", "b", "c", "d"], "A", "G"⟩

/-- A second concrete question, with correct answer B. -/
def qEx2 : Question := ⟨"Q2", ["a", "b", "c", "d"], "B", "G"⟩

/-- The state after loading a one-question CSV file. -/
def loadedOne : QState := (loadQuestions initState (.ok "Q,a,b,c,d,A,G")).1

/-- `loadedOne` after the option button A of its question was clicked. -/
def answeredOne : QState := answerCurrent loadedOne "A"

/-- The state after loading a two-question CSV file. -/
def loadedTwo : QState :=
  (loadQuestions initState (.ok "Q,a,b,c,d,A,G\nQ2,a,b,c,d,B,G")).1

/-! ## Claim C1 — failure behavior of `loadQuestions` -/

/-- Claim C1, counterexample.  With a previously loaded state (one
question, one correct answer scored) a failing load does reject with the
underlying error, but the prior state is not left as it was: the clearing
prologue of `loadQuestions` has already run. -/
theorem load_failure_counterexample :
    (loadQuestions answeredOne (.error "ENOENT")).2 = .error "ENOENT" ∧
    (loadQuestions answeredOne (.error "ENOENT")).1 ≠ answeredOne := by
  constructor
  · rfl
  · decide

/-- Claim C1 (amended): when the file read fails, `loadQuestions` rejects
its promise with the underlying error and installs no question list; the
prior state, however, is not preserved — the question lists come out
empty and the index and both counters come out zero, whatever they were
before the call (only the timer is left untouched). -/
theorem load_failure_behavior (σ : QState) (e : String) :
    loadQuestions σ (.error e) =
      ({ σ with store := [], answered := [], active := [], currentIndex := 0
              , correctCount := 0, incorrectCount := 0 }, .error e) := rfl

/-! ## Claim C6 — dialog serialization -/

/-- Claim C6: with no dialog outstanding, the first `selectCSVFile` call
invokes the file-picker collaborator and sets the flag; a second call
made while the response is pending changes nothing and does not invoke
the collaborator; whatever the settlement (path, cancellation, error),
the continuation clears the flag, leaves the invocation count at one
more than before the calls, and swallows errors (no pending load from an
error settlement). -/
theorem dialog_serialization (w : DialogWorld) (h : w.isDialogOpen = false) :
    (selectBegin w).2 = true ∧
    (selectBegin w).1.isDialogOpen = true ∧
    (selectBegin w).1.invokeCount = w.invokeCount + 1 ∧
    selectBegin (selectBegin w).1 = ((selectBegin w).1, false) ∧
    (∀ outcome : PickOutcome,
      (selectResume (selectBegin w).1 outcome).1.isDialogOpen = false ∧
      (selectResume (selectBegin w).1 outcome).1.invokeCount
        = w.invokeCount + 1) ∧
    (∀ msg : String,
      (selectResume (selectBegin w).1 (.err msg)).2 = none) := by
  simp [selectBegin, selectResume, h]

/-- Claim C6, witness at the initial dialog state. -/
theorem dialog_serialization_witness :
    (selectBegin ⟨false, 0⟩).2 = true ∧
    selectBegin (selectBegin ⟨false, 0⟩).1 = ((selectBegin ⟨false, 0⟩).1, false) ∧
    (selectResume (selectBegin ⟨false, 0⟩).1 (.err "boom")).1.isDialogOpen
      = false :=
  ⟨(dialog_serialization ⟨false, 0⟩ rfl).1,
   (dialog_serialization ⟨false, 0⟩ rfl).2.2.2.1,
   ((dialog_serialization ⟨false, 0⟩ rfl).2.2.2.2.1 (.err "boom")).1⟩

/-! ## Claim C10 — the guard covers only the picker round trip -/

/-- Claim C10: when the picker settles with a non-empty path, the
continuation starts the CSV load without awaiting it (the load is still
pending when `selectCSVFile` finishes), clears the dialog flag, and a
subsequent `selectCSVFile` call is accepted — it invokes the collaborator
again even though that load is still outstanding. -/
theorem dialog_guard_scope (w : DialogWorld) (p : String) (hp : p ≠ "") :
    (selectResume w (.ok (some p))).2 = some p ∧
    (selectResume w (.ok (some p))).1.isDialogOpen = false ∧
    (selectBegin (selectResume w (.ok (some p))).1).2 = true ∧
    (selectBegin (selectResume w (.ok (some p))).1).1.invokeCount
      = w.invokeCount + 1 := by
  simp [selectBegin, selectResume, hp]

/-- Claim C10, witness: a settled pick of a concrete path while the flag
is up. -/
theorem dialog_guard_scope_witness :
    (selectResume ⟨true, 1⟩ (.ok (some "/tmp/quiz.csv"))).2
      = some "/tmp/quiz.csv" ∧
    (selectBegin (selectResume ⟨true, 1⟩ (.ok (some "/tmp/quiz.csv"))).1).2
      = true :=
  ⟨(dialog_guard_scope ⟨true, 1⟩ "/tmp/quiz.csv" (by decide)).1,
   (dialog_guard_scope ⟨true, 1⟩ "/tmp/quiz.csv" (by decide)).2.2.1⟩

/-! ## Claim C9 — separator auto-detection -/

/-- Claim C9: the delimiter is detected once per file from the raw
content; when the content contains a semicolon anywhere, every row is
split on semicolons, otherwise every row is split on commas. -/
theorem separator_autodetect (content : String) :
    (jsIncludesChar content ';' = true →
      csvRows content = (csvLines content).map (fun line => jsSplit line ';')) ∧
    (jsIncludesChar content ';' = false →
      csvRows content = (csvLines content).map (fun line => jsSplit line ',')) := by
  constructor <;> intro h <;> simp [csvRows, separatorOf, h]

/-- Claim C9, witness on a semicolon file and a comma file. -/
theorem separator_autodetect_witness :
    csvRows "a;b\nc" = (csvLines "a;b\nc").map (fun line => jsSplit line ';') ∧
    csvRows "a,b" = (csvLines "a,b").map (fun line => jsSplit line ',') :=
  ⟨(separator_autodetect "a;b\nc").1 (by decide),
   (separator_autodetect "a,b").2 (by decide)⟩

/-! ## Claim C5 — row validation and normalization -/

/-- `List.any` over `range 6` spelled out. -/
theorem range6_any (g : Nat → Bool) :
    (List.range 6).any g = (g 0 || g 1 || g 2 || g 3 || g 4 || g 5) := by
  show (([0, 1, 2, 3, 4, 5] : List Nat).any g) = _
  simp [Bool.or_assoc]

/-- The row loop pushes each valid question at the end of the
accumulator, in stream order. -/
theorem loadRows_foldl_append (rows : List (List String)) (acc : List Question) :
    rows.foldl (fun acc row =>
        match parseRow row with
        | some q => acc ++ [q]
        | none => acc) acc
      = acc ++ rows.filterMap parseRow := by
  induction rows generalizing acc with
  | nil => simp
  | cons r rest ih =>
    simp only [List.foldl_cons, List.filterMap_cons]
    cases h : parseRow r <;> simp [h, ih]

/-- Claim C5, counterexample.  Two rows on which the loader differs from
the claim: a row whose group field is present but empty is accepted with
the sentinel group `"All"` instead of the trimmed group field, and a row
whose question text is whitespace-only (empty after trimming but truthy
before) is accepted — with empty text — instead of rejected. -/
theorem row_validation_counterexample :
    parseRow ["q", "a", "b", "c", "d", "A", ""]
      ≠ claimParse ["q", "a", "b", "c", "d", "A", ""] ∧
    parseRow ["  ", "a", "b", "c", "d", "A"]
      ≠ claimParse ["  ", "a", "b", "c", "d", "A"] := by
  decide

/-- Claim C5 (amended): loading yields exactly the valid rows, normalized,
in input order, duplicates retained (the loaded list is the
`filterMap` of the per-row validator over the row stream); a row is
rejected if and only if one of its first six fields is missing or empty
as delivered by the parser (before trimming), or its trimmed upper-cased
correct-answer letter is not in {A,B,C,D}; an accepted row becomes a
question with trimmed string fields, the upper-cased letter, and the
trimmed group field — `"All"` when the group field is missing or
empty. -/
theorem row_validation_normalization (rows : List (List String)) :
    loadRows rows = rows.filterMap parseRow ∧
    ∀ row, parseRow row = amendedParse row := by
  constructor
  · simpa using loadRows_foldl_append rows []
  · intro row
    simp only [parseRow, amendedParse, range6_any]

/-! ## Claim C7 — group filtering -/

/-- Realization of a reference list: the references produced by
`refsWhere p l i`, read back through the store `pre ++ l` with
`i = pre.length`, denote exactly the filtered entries of `l`. -/
theorem refsWhere_filterMap (p : Question → Bool) (l pre : List Question) :
    (refsWhere p l pre.length).filterMap (fun r => (pre ++ l).get? r)
      = l.filter p := by
  induction l generalizing pre with
  | nil => simp [refsWhere]
  | cons q rest ih =>
    have hlen : pre.length + 1 = (pre ++ [q]).length := by simp
    have happ : (pre ++ [q]) ++ rest = pre ++ q :: rest := by simp
    have ihq := ih (pre ++ [q])
    rw [← hlen, happ] at ihq
    simp only [List.get?_eq_getElem?] at ihq
    have hget : (pre ++ q :: rest)[pre.length]? = some q := by
      rw [List.getElem?_append_right (Nat.le_refl _)]
      simp
    by_cases hp : p q
    · simp [refsWhere, hp, List.filterMap_cons, hget, ihq, List.filter_cons]
    · simp [refsWhere, hp, ihq, List.filter_cons]

/-- Special case: references into the store itself. -/
theorem refsWhere_filterMap_nil (p : Question → Bool) (l : List Question) :
    (refsWhere p l 0).filterMap (fun r => l.get? r) = l.filter p := by
  have h := refsWhere_filterMap p l []
  simpa using h

/-- Claim C7: applying the group filter with the sentinel label restores
the full loaded set — the active array denotes `allQuestions`, same
length and order — while a non-sentinel label makes it the subsequence of
`allQuestions` whose group equals the label, in original order; in both
cases the current index and both score counters are reset to zero. -/
theorem group_filter_semantics (σ : QState) (label : String) :
    activeList (applyGroupFilter σ label)
      = (if label = "All" then σ.store
         else σ.store.filter (fun q => q.group == label)) ∧
    (applyGroupFilter σ label).currentIndex = 0 ∧
    (applyGroupFilter σ label).correctCount = 0 ∧
    (applyGroupFilter σ label).incorrectCount = 0 := by
  refine ⟨?_, rfl, rfl, rfl⟩
  by_cases h : label = "All"
  · simp only [activeList, applyGroupFilter, h, if_pos rfl]
    simpa using refsWhere_filterMap_nil (fun _ => true) σ.store
  · simp only [activeList, applyGroupFilter, if_neg h]
    exact refsWhere_filterMap_nil (fun q => q.group == label) σ.store

/-! ## Claim C2 — lifecycle of the answered marks -/

/-- Claim C2, counterexample.  Load one question, answer it, then apply
the group filter `"All"`: the question sits in the new active set with
its answered mark still `true` — the filter change resets no marks. -/
theorem answered_mark_counterexample :
    (¬ ∀ r ∈ (applyGroupFilter answeredOne "All").active,
        (applyGroupFilter answeredOne "All").answered.getD r false = false) ∧
    (run loadedTwo [Ev.next, Ev.ans "B"]).answered.getD 1 false = false ∧
    (run loadedTwo [Ev.next, Ev.ans "B"]).answered.getD 0 false = true := by
  refine ⟨by decide, by decide, by decide⟩

/-- Claim C2 (amended): the answered marks are initialized `false` on
load; a `checkAnswer` call sets the mark of the question at the stale
exported index — the first active slot — whatever question is displayed
and scored, so a navigated-to question's mark is never set through the
UI; `checkAnswer` clears no mark; navigation leaves the marks unchanged;
and a group-filter change also leaves every mark unchanged — the
questions of the new active set keep whatever marks they had, nothing is
reset to `false`. -/
theorem answered_mark_lifecycle (σ : QState) (f : Except String String)
    (label sel cor : String) :
    (∀ b ∈ ((loadQuestions σ f).1).answered, b = false) ∧
    ((checkAnswer σ sel cor).answered
      = match σ.active.get? exportedQuestionIndex with
        | some r => σ.answered.set r true
        | none => σ.answered) ∧
    ((applyGroupFilter σ label).answered = σ.answered) ∧
    ((stepEv σ Ev.next).answered = σ.answered) ∧
    ((stepEv σ Ev.prev).answered = σ.answered) := by
  refine ⟨?_, ?_, rfl, ?_, ?_⟩
  · intro b hb
    match f with
    | .error e => simp [loadQuestions, clearedState] at hb
    | .ok content =>
      simp only [loadQuestions] at hb
      by_cases h : (parseCSV content).isEmpty
      · simp [h, clearedState] at hb
      · simp only [h, if_neg, Bool.false_eq_true, not_false_iff, postLoad] at hb
        obtain ⟨_, _, hb⟩ := List.mem_map.mp hb
        exact hb.symm
  · simp only [checkAnswer]
    by_cases hs : sel = cor <;>
      cases h : σ.active.get? exportedQuestionIndex <;>
        simp [hs, h] <;> split <;> rfl
  · simp only [stepEv]
    split <;> rfl
  · simp only [stepEv]
    split
    · split <;> rfl
    · rfl

/-! ## Frame lemmas for `checkAnswer` and the interaction steps -/

/-- `checkAnswer` never touches the active array. -/
theorem checkAnswer_active (σ : QState) (s c : String) :
    (checkAnswer σ s c).active = σ.active := by
  simp only [checkAnswer]
  by_cases hs : s = c <;>
    cases h : σ.active.get? exportedQuestionIndex <;>
      simp [hs, h] <;> split <;> rfl

/-- `checkAnswer` never touches the store. -/
theorem checkAnswer_store (σ : QState) (s c : String) :
    (checkAnswer σ s c).store = σ.store := by
  simp only [checkAnswer]
  by_cases hs : s = c <;>
    cases h : σ.active.get? exportedQuestionIndex <;>
      simp [hs, h] <;> split <;> rfl

/-- `checkAnswer` never moves the current index. -/
theorem checkAnswer_currentIndex (σ : QState) (s c : String) :
    (checkAnswer σ s c).currentIndex = σ.currentIndex := by
  simp only [checkAnswer]
  by_cases hs : s = c <;>
    cases h : σ.active.get? exportedQuestionIndex <;>
      simp [hs, h] <;> split <;> rfl

/-- Every `checkAnswer` call increments exactly one of the two counters. -/
theorem checkAnswer_sum (σ : QState) (s c : String) :
    (checkAnswer σ s c).correctCount + (checkAnswer σ s c).incorrectCount
      = σ.correctCount + σ.incorrectCount + 1 := by
  simp only [checkAnswer]
  by_cases hs : s = c <;>
    cases h : σ.active.get? exportedQuestionIndex <;>
      simp [hs, h] <;> (try split) <;> (try simp) <;> omega

/-- The marks after `checkAnswer`: the mark of the question at the
stale exported index (the first active slot) is set, whatever question
is displayed; nothing else changes. -/
theorem checkAnswer_answered_eq (σ : QState) (s c : String) :
    (checkAnswer σ s c).answered
      = match σ.active.get? exportedQuestionIndex with
        | some r => σ.answered.set r true
        | none => σ.answered := by
  simp only [checkAnswer]
  by_cases hs : s = c <;>
    cases h : σ.active.get? exportedQuestionIndex <;>
      simp [hs, h] <;> split <;> rfl

/-- The timer after `checkAnswer`: stopped when the updated marks cover
the whole (non-empty) active array, otherwise untouched. -/
theorem checkAnswer_timer (σ : QState) (s c : String) :
    (checkAnswer σ s c).timerRunning
      = match σ.active.get? exportedQuestionIndex with
        | none => σ.timerRunning
        | some r =>
          if σ.active.length > 0
             && σ.active.all (fun r2 => (σ.answered.set r true).getD r2 false)
          then false else σ.timerRunning := by
  simp only [checkAnswer]
  by_cases hs : s = c <;>
    cases h : σ.active.get? exportedQuestionIndex <;>
      simp only [hs, h, ite_true, ite_false, if_pos, if_neg] <;>
        split <;> rfl

/-- Under `Inv`, the displayed question exists and the reference of the
current active slot is defined. -/
theorem current_ref_exists (σ : QState) (h : Inv σ) :
    ∃ r, σ.active.get? σ.currentIndex = some r ∧
      ∃ q, σ.store.get? r = some q := by
  obtain ⟨hbound, -, hidx⟩ := h
  refine ⟨σ.active.get ⟨σ.currentIndex, hidx⟩, List.get?_eq_get hidx, ?_⟩
  have hmem := List.get_mem σ.active σ.currentIndex hidx
  have hr := hbound _ hmem
  exact ⟨σ.store.get ⟨_, hr⟩, List.get?_eq_get hr⟩

/-- Interaction steps never touch the store. -/
theorem stepEv_store (σ : QState) (e : Ev) : (stepEv σ e).store = σ.store := by
  cases e with
  | ans sel =>
    simp only [stepEv, answerCurrent]
    cases h : currentQuestion σ
    · rfl
    · exact checkAnswer_store ..
  | next => simp only [stepEv]; split <;> rfl
  | prev =>
    simp only [stepEv]
    split
    · split <;> rfl
    · rfl

/-- Interaction steps never touch the active array. -/
theorem stepEv_active (σ : QState) (e : Ev) : (stepEv σ e).active = σ.active := by
  cases e with
  | ans sel =>
    simp only [stepEv, answerCurrent]
    cases h : currentQuestion σ
    · rfl
    · exact checkAnswer_active ..
  | next => simp only [stepEv]; split <;> rfl
  | prev =>
    simp only [stepEv]
    split
    · split <;> rfl
    · rfl

/-- `Inv` is preserved by every interaction step. -/
theorem inv_step (σ : QState) (e : Ev) (h : Inv σ) : Inv (stepEv σ e) := by
  obtain ⟨hbound, hne, hidx⟩ := h
  cases e with
  | ans sel =>
    refine ⟨?_, ?_, ?_⟩
    · rw [stepEv_active, stepEv_store]; exact hbound
    · rw [stepEv_active]; exact hne
    · have hact := stepEv_active σ (.ans sel)
      simp only [stepEv, answerCurrent] at hact ⊢
      cases hq : currentQuestion σ
      · simpa using hidx
      · simp only [hq]
        simp only [hq] at hact
        rw [checkAnswer_currentIndex, hact]
        exact hidx
  | next =>
    have hpos : 0 < σ.active.length := List.length_pos.mpr hne
    simp only [stepEv]
    split
    · exact ⟨hbound, hne, show σ.currentIndex + 1 < σ.active.length by omega⟩
    · exact ⟨hbound, hne, hidx⟩
  | prev =>
    simp only [stepEv]
    split
    · split <;>
        exact ⟨hbound, hne, show σ.currentIndex - 1 < σ.active.length by omega⟩
    · exact ⟨hbound, hne, hidx⟩

/-- Whether an event is a `checkAnswer` call. -/
def isAns : Ev → Bool
  | .ans _ => true
  | _ => false

/-- Under `Inv` each step adds exactly one to the counter sum for an
`ans` event and nothing otherwise. -/
theorem sum_step (σ : QState) (e : Ev) (h : Inv σ) :
    (stepEv σ e).correctCount + (stepEv σ e).incorrectCount
      = σ.correctCount + σ.incorrectCount + (if isAns e then 1 else 0) := by
  cases e with
  | ans sel =>
    obtain ⟨r, hr, q, hq⟩ := current_ref_exists σ h
    simp only [stepEv, answerCurrent, currentQuestion, hr, Option.bind, hq, isAns,
      if_pos]
    exact checkAnswer_sum ..
  | next => simp only [stepEv, isAns]; split <;> simp
  | prev =>
    simp only [stepEv, isAns]
    split
    · split <;> simp
    · simp

/-- Counter totals over a trace: the sum grows by exactly the number of
`ans` events (and `Inv` is maintained). -/
theorem run_inv_sum (evs : List Ev) :
    ∀ σ : QState, Inv σ →
      Inv (run σ evs) ∧
      (run σ evs).correctCount + (run σ evs).incorrectCount
        = σ.correctCount + σ.incorrectCount + countAns evs := by
  induction evs with
  | nil => intro σ h; exact ⟨h, by simp [run, countAns]⟩
  | cons e rest ih =>
    intro σ h
    have hstep := inv_step σ e h
    have hsum := sum_step σ e h
    obtain ⟨hinv, hrest⟩ := ih (stepEv σ e) hstep
    have hrun : run σ (e :: rest) = run (stepEv σ e) rest := rfl
    have hcnt : countAns (e :: rest)
        = countAns rest + (if isAns e then 1 else 0) := by
      simp only [countAns, List.countP_cons]
      cases e <;> simp [isAns]
    rw [hrun]
    refine ⟨hinv, ?_⟩
    rw [hrest, hsum, hcnt]
    omega

/-- Setting one mark `true` raises the count of `true` marks by at most
one. -/
theorem count_set_true (l : List Bool) (r : Nat) :
    (l.set r true).count true ≤ l.count true + 1 := by
  induction l generalizing r with
  | nil => simp
  | cons b t ih =>
    cases r with
    | zero => simp [List.count_cons]
    | succ k =>
      simp only [List.set, List.count_cons]
      have := ih k
      omega

/-- Each step adds at most one `true` mark for an `ans` event and none
otherwise. -/
theorem marks_step (σ : QState) (e : Ev) :
    (stepEv σ e).answered.count true
      ≤ σ.answered.count true + (if isAns e then 1 else 0) := by
  cases e with
  | ans sel =>
    simp only [stepEv, answerCurrent, isAns, ite_true]
    cases hq : currentQuestion σ
    · exact Nat.le_add_right ..
    · rw [checkAnswer_answered_eq]
      cases hr : σ.active.get? exportedQuestionIndex
      · exact Nat.le_add_right ..
      · exact count_set_true ..
  | next =>
    simp only [stepEv, isAns, ite_false]
    split <;> simp
  | prev =>
    simp only [stepEv, isAns, ite_false]
    split
    · split <;> simp
    · simp

/-- Marks accumulated over a trace never exceed the number of `ans`
events. -/
theorem run_marks (evs : List Ev) :
    ∀ σ : QState,
      (run σ evs).answered.count true ≤ σ.answered.count true + countAns evs := by
  induction evs with
  | nil => intro σ; simp [run, countAns]
  | cons e rest ih =>
    intro σ
    have h1 := marks_step σ e
    have h2 := ih (stepEv σ e)
    have hrun : run σ (e :: rest) = run (stepEv σ e) rest := rfl
    have hcnt : countAns (e :: rest)
        = countAns rest + (if isAns e then 1 else 0) := by
      simp only [countAns, List.countP_cons]
      cases e <;> simp [isAns]
    rw [hrun, hcnt]
    omega

/-- Lower bound of a `refsWhere` reference. -/
theorem refsWhere_mem_lt (p : Question → Bool) (l : List Question) :
    ∀ i r, r ∈ refsWhere p l i → r < i + l.length := by
  induction l with
  | nil => intro i r h; simp [refsWhere] at h
  | cons q rest ih =>
    intro i r h
    simp only [refsWhere] at h
    by_cases hp : p q
    · rw [if_pos hp] at h
      rcases List.mem_cons.mp h with h | h
      · simp [h]
      · have := ih (i + 1) r h
        simp only [List.length_cons]
        omega
    · rw [if_neg hp] at h
      have := ih (i + 1) r h
      simp only [List.length_cons]
      omega

/-- A non-empty load satisfies the reachability invariant. -/
theorem postLoad_inv (qs : List Question) (h : qs ≠ []) : Inv (postLoad qs) := by
  refine ⟨?_, ?_, ?_⟩
  · intro r hr
    have := refsWhere_mem_lt (fun _ => true) qs 0 r hr
    simpa using this
  · cases qs with
    | nil => exact absurd rfl h
    | cons q rest => simp [postLoad, refsWhere]
  · cases qs with
    | nil => exact absurd rfl h
    | cons q rest => simp [postLoad, refsWhere]

/-- Right after a load, no mark is set. -/
theorem postLoad_count_zero (qs : List Question) :
    (postLoad qs).answered.count true = 0 := by
  simp only [postLoad]
  induction qs with
  | nil => simp
  | cons q rest ih => simpa [List.count_cons] using ih

/-- Claim C2, witness: a concrete load has all marks `false`, and a
concrete filter change preserves the marks of the loaded state. -/
theorem answered_mark_lifecycle_witness :
    (false : Bool) = false ∧
    (applyGroupFilter loadedOne "G").answered = loadedOne.answered :=
  ⟨(answered_mark_lifecycle initState (.ok "Q,a,b,c,d,A,G") "G" "A" "A").1
      false (by decide),
   (answered_mark_lifecycle loadedOne (.ok "Q,a,b,c,d,A,G") "G" "A" "A").2.2.1⟩

/-! ## Claim C3 — scoring totals -/

/-- Claim C3, counterexample.  Load one question and click its (already
answered) option twice: the counter sum is 2 while only one distinct
question has been answered — repeated `checkAnswer` calls on an answered
question keep incrementing the counters. -/
theorem scoring_counterexample :
    (run loadedOne [Ev.ans "A", Ev.ans "A"]).correctCount
        + (run loadedOne [Ev.ans "A", Ev.ans "A"]).incorrectCount = 2 ∧
    (run loadedOne [Ev.ans "A", Ev.ans "A"]).answered.count true = 1 ∧
    (run loadedOne [Ev.ans "A", Ev.ans "A"]).correctCount
        + (run loadedOne [Ev.ans "A", Ev.ans "A"]).incorrectCount
      ≠ (run loadedOne [Ev.ans "A", Ev.ans "A"]).answered.count true := by
  decide

/-- Claim C3 (amended): after a non-empty load,
`correctCount + incorrectCount` equals the number of `checkAnswer` calls
made so far — each call increments exactly one counter, including
repeated calls on an already-answered question; the sum never decreases
as the trace extends; and the number of distinct questions answered
(the set marks) never exceeds the sum, the repeated calls affecting the
marks only once. -/
theorem scoring_totals (qs : List Question) (evs more : List Ev)
    (h : qs ≠ []) :
    (run (postLoad qs) evs).correctCount
        + (run (postLoad qs) evs).incorrectCount = countAns evs ∧
    (run (postLoad qs) evs).correctCount
        + (run (postLoad qs) evs).incorrectCount
      ≤ (run (postLoad qs) (evs ++ more)).correctCount
          + (run (postLoad qs) (evs ++ more)).incorrectCount ∧
    (run (postLoad qs) evs).answered.count true ≤ countAns evs := by
  have hinv := postLoad_inv qs h
  have h1 := (run_inv_sum evs (postLoad qs) hinv).2
  have h2 := (run_inv_sum (evs ++ more) (postLoad qs) hinv).2
  have h3 := run_marks evs (postLoad qs)
  have hz : (postLoad qs).correctCount + (postLoad qs).incorrectCount = 0 := rfl
  have hm := postLoad_count_zero qs
  have hsplit : countAns (evs ++ more) = countAns evs + countAns more := by
    simp [countAns, List.countP_append]
  refine ⟨by omega, by omega, by omega⟩

/-- Claim C3, witness: one question, one `checkAnswer` call, counter sum
one. -/
theorem scoring_totals_witness :
    (run (postLoad [qEx]) [Ev.ans "A"]).correctCount
        + (run (postLoad [qEx]) [Ev.ans "A"]).incorrectCount
      = countAns [Ev.ans "A"] :=
  (scoring_totals [qEx] [Ev.ans "A"] [] (by decide)).1

/-! ## Claim C4 — timer behavior -/

/-- Setting a mark `true` clears no mark. -/
theorem set_true_getD_mono (l : List Bool) (r0 r : Nat)
    (h : l.getD r false = true) : (l.set r0 true).getD r false = true := by
  induction l generalizing r0 r with
  | nil => simp [List.getD] at h
  | cons b t ih =>
    cases r0 with
    | zero =>
      cases r with
      | zero => simp [List.set]
      | succ k => simpa [List.set] using h
    | succ j =>
      cases r with
      | zero => simpa [List.set] using h
      | succ k =>
        simp only [List.set, List.getD_cons_succ] at h ⊢
        exact ih j k h

/-- A mark that is set after `set r0 true` was either just written at
`r0` or already set. -/
theorem getD_set_cases (l : List Bool) (r0 r : Nat)
    (h : (l.set r0 true).getD r false = true) :
    r = r0 ∨ l.getD r false = true := by
  induction l generalizing r0 r with
  | nil => simp [List.getD] at h
  | cons b t ih =>
    cases r0 with
    | zero =>
      cases r with
      | zero => exact Or.inl rfl
      | succ k =>
        right
        simpa [List.set] using h
    | succ j =>
      cases r with
      | zero =>
        right
        simpa [List.set] using h
      | succ k =>
        simp only [List.set, List.getD_cons_succ] at h
        rcases ih j k h with h | h
        · exact Or.inl (by omega)
        · exact Or.inr (by simpa using h)

/-- The identity reference list has the length of the store. -/
theorem refsWhere_true_len (l : List Question) (i : Nat) :
    (refsWhere (fun _ => true) l i).length = l.length := by
  induction l generalizing i with
  | nil => simp [refsWhere]
  | cons q rest ih => simp [refsWhere, ih]

/-- Right after a load, every mark reads `false`. -/
theorem postLoad_getD_false (qs : List Question) (r : Nat) :
    (postLoad qs).answered.getD r false = false := by
  simp only [postLoad]
  induction qs generalizing r with
  | nil => simp [List.getD]
  | cons q rest ih =>
    cases r with
    | zero => simp
    | succ k =>
      simp only [List.map_cons, List.getD_cons_succ]
      exact ih k

/-- One interaction step preserves the trace invariant: the store and
active references stay those of the load, the index stays in bounds,
`checkAnswer` can only mark the question at the stale exported index 0,
and the timer is stopped exactly when every active question is marked —
a Previous move that lands on index 0 restarts the timer, which is
harmless for the invariant because a state with every mark set and the
index above 0 is unreachable. -/
theorem trace_inv_step (qs : List Question) (σ : QState) (e : Ev)
    (hq : qs ≠ []) (hI : TraceInv qs σ) : TraceInv qs (stepEv σ e) := by
  obtain ⟨hst, hact, hidx, hloc, hiff⟩ := hI
  cases e with
  | next =>
    simp only [stepEv]
    split
    · exact ⟨hst, hact, show σ.currentIndex + 1 < σ.active.length by omega,
        hloc, hiff⟩
    · exact ⟨hst, hact, hidx, hloc, hiff⟩
  | prev =>
    simp only [stepEv]
    split
    · rename_i hpos
      split
      · refine ⟨hst, hact,
          show σ.currentIndex - 1 < σ.active.length by omega, hloc, ?_⟩
        have hL : σ.active.length = qs.length := by
          rw [hact, refsWhere_true_len]
        have hlen2 : 2 ≤ qs.length := by omega
        obtain ⟨q0, qs1, rfl⟩ : ∃ a l, qs = a :: l := by
          cases qs with
          | nil => simp at hlen2
          | cons a l => exact ⟨a, l, rfl⟩
        obtain ⟨q1, qs2, rfl⟩ : ∃ a l, qs1 = a :: l := by
          cases qs1 with
          | nil => simp at hlen2
          | cons a l => exact ⟨a, l, rfl⟩
        have h1mem : (1 : Nat) ∈ σ.active := by
          rw [hact]
          simp [refsWhere]
        refine iff_of_false (by simp) ?_
        intro hall
        have h1 := hloc 1 (hall 1 h1mem)
        simp at h1
      · exact ⟨hst, hact,
          show σ.currentIndex - 1 < σ.active.length by omega, hloc, hiff⟩
    · exact ⟨hst, hact, hidx, hloc, hiff⟩
  | ans sel =>
    have hbound : ∀ r ∈ σ.active, r < σ.store.length := by
      intro r hr
      rw [hact] at hr
      have := refsWhere_mem_lt (fun _ => true) qs 0 r hr
      rw [hst]
      simpa using this
    have hne : σ.active ≠ [] := by
      rw [hact]
      cases qs with
      | nil => exact absurd rfl hq
      | cons a l => simp [refsWhere]
    obtain ⟨r, hr, q, hq2⟩ := current_ref_exists σ ⟨hbound, hne, hidx⟩
    have hrg := hr
    have hqg := hq2
    simp only [List.get?_eq_getElem?] at hrg hqg
    have hstep : stepEv σ (Ev.ans sel) = checkAnswer σ sel q.correctAnswer := by
      simp [stepEv, answerCurrent, currentQuestion, hrg, hqg]
    have h0 : σ.active.get? exportedQuestionIndex = some 0 := by
      rw [hact]
      cases qs with
      | nil => exact absurd rfl hq
      | cons a l => simp [refsWhere, exportedQuestionIndex]
    refine ⟨?_, ?_, ?_, ?_, ?_⟩
    · rw [hstep, checkAnswer_store]
      exact hst
    · rw [hstep, checkAnswer_active]
      exact hact
    · rw [hstep, checkAnswer_currentIndex, checkAnswer_active]
      exact hidx
    · rw [hstep, checkAnswer_answered_eq]
      simp only [h0]
      intro r2 h2
      rcases getD_set_cases σ.answered 0 r2 h2 with h | h
      · exact h
      · exact hloc r2 h
    · rw [hstep, checkAnswer_timer, checkAnswer_answered_eq, checkAnswer_active]
      simp only [h0]
      have hlen : 0 < σ.active.length := by omega
      by_cases hb : (σ.active.length > 0
          && σ.active.all (fun r2 => (σ.answered.set 0 true).getD r2 false))
            = true
      · rw [if_pos hb]
        have hb2 : σ.active.all
            (fun r2 => (σ.answered.set 0 true).getD r2 false) = true := by
          simp only [Bool.and_eq_true] at hb
          exact hb.2
        exact iff_of_true rfl (List.all_eq_true.mp hb2)
      · rw [if_neg hb]
        have hAllFalse : ¬ (σ.active.all
            (fun r2 => (σ.answered.set 0 true).getD r2 false) = true) := by
          intro hA
          apply hb
          simp only [Bool.and_eq_true]
          exact ⟨decide_eq_true hlen, hA⟩
        refine iff_of_false (fun htf => ?_) (fun hP => ?_)
        · exact hAllFalse (List.all_eq_true.mpr
            (fun x hx => set_true_getD_mono _ _ _ (hiff.mp htf x hx)))
        · exact hAllFalse (List.all_eq_true.mpr hP)

/-- The trace invariant carries over whole traces. -/
theorem trace_inv_run (qs : List Question) (evs : List Ev) (hq : qs ≠ []) :
    ∀ σ : QState, TraceInv qs σ → TraceInv qs (run σ evs) := by
  induction evs with
  | nil => intro σ hI; exact hI
  | cons e rest ih =>
    intro σ hI
    have hrun : run σ (e :: rest) = run (stepEv σ e) rest := rfl
    rw [hrun]
    exact ih (stepEv σ e) (trace_inv_step qs σ e hq hI)

/-- A non-empty load establishes the trace invariant. -/
theorem postLoad_trace_inv (qs : List Question) (hq : qs ≠ []) :
    TraceInv qs (postLoad qs) := by
  refine ⟨rfl, rfl, ?_, ?_, ?_⟩
  · have hpos : 0 < qs.length := List.length_pos.mpr hq
    show (0 : Nat) < (refsWhere (fun _ => true) qs 0).length
    rw [refsWhere_true_len]
    exact hpos
  · intro r h
    rw [postLoad_getD_false] at h
    exact absurd h (by simp)
  · apply iff_of_false
    · simp [postLoad]
    · intro hall
      cases qs with
      | nil => exact absurd rfl hq
      | cons q rest =>
        have h0 : (0 : Nat) ∈ (postLoad (q :: rest)).active := by
          simp [postLoad, refsWhere]
        have hm := hall 0 h0
        rw [postLoad_getD_false] at hm
        exact absurd hm (by simp)

/-- Claim C4, counterexample.  Load two questions and score each one
while it is displayed (click A on question 0, Next, click B on
question 1): `checkAnswer` has now been applied to all 2 questions, yet
the timer is still running — the stale exported index made both calls
mark question 0 only, so the second question's mark is never set and
the all-answered stop condition never fires. -/
theorem timer_termination_counterexample :
    (run loadedTwo [Ev.ans "A", Ev.next, Ev.ans "B"]).timerRunning = true ∧
    (run loadedTwo [Ev.ans "A", Ev.next, Ev.ans "B"]).answered
      = [true, false] := by
  refine ⟨by decide, by decide⟩

/-- Claim C4 (amended): after a non-empty load of N questions, along any
trace of option clicks and navigation, the timer's interval is cleared
exactly when every question of the active set carries its answered mark;
but `checkAnswer` scores through the stale exported index, so only the
first question's mark is ever set — with N = 1 the timer stops at the
first answer, while for N ≥ 2 the timer keeps running after `checkAnswer`
has been applied to all N questions (it never stops along such
traces). -/
theorem timer_behavior (qs : List Question) (evs : List Ev)
    (h : qs ≠ []) :
    ((run (postLoad qs) evs).timerRunning = false ↔
      ∀ r ∈ (run (postLoad qs) evs).active,
        (run (postLoad qs) evs).answered.getD r false = true) ∧
    (∀ r, (run (postLoad qs) evs).answered.getD r false = true → r = 0) ∧
    (2 ≤ qs.length → (run (postLoad qs) evs).timerRunning = true) := by
  obtain ⟨hst, hact, hidx, hloc, hiff⟩ :=
    trace_inv_run qs evs h (postLoad qs) (postLoad_trace_inv qs h)
  refine ⟨hiff, hloc, ?_⟩
  intro h2
  by_contra hb
  have hfalse : (run (postLoad qs) evs).timerRunning = false := by
    cases hres : (run (postLoad qs) evs).timerRunning
    · rfl
    · exact absurd hres hb
  have hall := hiff.mp hfalse
  obtain ⟨q0, qs1, rfl⟩ : ∃ a l, qs = a :: l := by
    cases qs with
    | nil => simp at h2
    | cons a l => exact ⟨a, l, rfl⟩
  obtain ⟨q1, qs2, rfl⟩ : ∃ a l, qs1 = a :: l := by
    cases qs1 with
    | nil => simp at h2
    | cons a l => exact ⟨a, l, rfl⟩
  have h1mem : (1 : Nat) ∈ (run (postLoad (q0 :: q1 :: qs2)) evs).active := by
    rw [hact]
    simp [refsWhere]
  have h1 := hloc 1 (hall 1 h1mem)
  simp at h1

/-- Claim C4, witness: with one question the timer stops at the first
answer; with two questions it is still running after both were scored. -/
theorem timer_behavior_witness :
    (run (postLoad [qEx]) [Ev.ans "A"]).timerRunning = false ∧
    (run (postLoad [qEx, qEx2]) [Ev.ans "A", Ev.next, Ev.ans "B"]).timerRunning
      = true :=
  ⟨(timer_behavior [qEx] [Ev.ans "A"] (by decide)).1.mpr (by decide),
   (timer_behavior [qEx, qEx2] [Ev.ans "A", Ev.next, Ev.ans "B"]
      (by decide)).2.2 (by decide)⟩

/-! ## Claim C8 — the group index -/

/-- Members of the first-seen list come from the input. -/
theorem mem_firstSeen (l : List String) (x : String) (h : x ∈ firstSeen l) :
    x ∈ l := by
  induction l using firstSeen.induct with
  | case1 => simp [firstSeen] at h
  | case2 g rest ih =>
    rw [firstSeen] at h
    rcases List.mem_cons.mp h with h | h
    · simp [h]
    · exact List.mem_cons_of_mem _ (List.mem_of_mem_filter (ih h))

/-- The first-seen list is duplicate-free. -/
theorem nodup_firstSeen (l : List String) : (firstSeen l).Nodup := by
  induction l using firstSeen.induct with
  | case1 => simp [firstSeen]
  | case2 g rest ih =>
    rw [firstSeen]
    refine List.nodup_cons.mpr ⟨?_, ih⟩
    intro hmem
    have hm := mem_firstSeen _ _ hmem
    have := List.of_mem_filter hm
    simp at this

/-- Folding `addLabel` computes the first-seen dedup of the labels not
yet in the accumulator. -/
theorem foldl_addLabel (l : List String) :
    ∀ acc : List String,
      l.foldl addLabel acc
        = acc ++ firstSeen (l.filter (fun x => !acc.contains x)) := by
  induction l with
  | nil => intro acc; simp [firstSeen]
  | cons g rest ih =>
    intro acc
    by_cases hg : acc.contains g = true
    · have hmem : g ∈ acc := List.elem_iff.mp hg
      have hstep : addLabel acc g = acc := by simp [addLabel, hg, hmem]
      have hfilter : (g :: rest).filter (fun x => !acc.contains x)
          = rest.filter (fun x => !acc.contains x) := by
        simp [List.filter_cons, hg, hmem]
      rw [List.foldl_cons, hstep, hfilter]
      exact ih acc
    · have hmem : g ∉ acc := fun hm => hg (List.elem_iff.mpr hm)
      have hstep : addLabel acc g = acc ++ [g] := by simp [addLabel, hg, hmem]
      have hfilter : (g :: rest).filter (fun x => !acc.contains x)
          = g :: rest.filter (fun x => !acc.contains x) := by
        simp [List.filter_cons, hg, hmem]
      have harg : rest.filter (fun x => !(acc ++ [g]).contains x)
          = (rest.filter (fun x => !acc.contains x)).filter (fun x => x != g) := by
        rw [List.filter_filter]
        apply List.filter_congr
        intro x hx
        by_cases hxg : x = g <;> by_cases hxa : x ∈ acc <;>
          simp [List.elem_eq_mem, List.mem_append, hxg, hxa]
      rw [List.foldl_cons, hstep, hfilter, ih (acc ++ [g]), harg, firstSeen]
      simp

/-- The fold inside `populateGroupDropdown` is the `addLabel` fold over
the truthy non-sentinel labels. -/
theorem groupIndex_foldl (qs : List Question) :
    ∀ acc : List String,
      qs.foldl (fun acc q =>
        if !q.group.isEmpty && q.group != "All" && !acc.contains q.group
        then acc ++ [q.group] else acc) acc
      = ((qs.map Question.group).filter
          (fun g => !g.isEmpty && g != "All")).foldl addLabel acc := by
  induction qs with
  | nil => intro acc; rfl
  | cons q rest ih =>
    intro acc
    rw [List.foldl_cons, List.map_cons, List.filter_cons]
    by_cases hc : (!q.group.isEmpty && q.group != "All") = true
    · rw [if_pos hc, List.foldl_cons]
      have hstep : (if !q.group.isEmpty && q.group != "All"
              && !acc.contains q.group
          then acc ++ [q.group] else acc) = addLabel acc q.group := by
        unfold addLabel
        by_cases hctn : acc.contains q.group = true
        · rw [if_pos hctn, if_neg]
          intro hcontra
          have hn := (Bool.and_eq_true_iff.mp hcontra).2
          simp [hctn] at hn
          exact hn (List.elem_iff.mp hctn)
        · rw [if_neg hctn, if_pos]
          refine Bool.and_eq_true_iff.mpr ⟨hc, ?_⟩
          simp only [Bool.not_eq_true'] at hctn ⊢
          exact Bool.eq_false_iff.mpr hctn
      rw [hstep, ih]
    · rw [if_neg hc]
      have hstep : (if !q.group.isEmpty && q.group != "All"
              && !acc.contains q.group
          then acc ++ [q.group] else acc) = acc := by
        apply if_neg
        intro hcontra
        exact hc (Bool.and_eq_true_iff.mp hcontra).1
      rw [hstep, ih]

/-- Claim C8, counterexample.  A loaded question sequence can carry the
empty-string group label (a whitespace-only group field is truthy and
trims to `""`): the label is distinct from `"All"` and occurs in the
loaded sequence, yet the group index omits it. -/
theorem group_index_counterexample :
    (∃ q ∈ parseCSV "q,a,b,c,d,A, ", q.group = "" ∧ q.group ≠ "All") ∧
    "" ∉ groupIndex (parseCSV "q,a,b,c,d,A, ") := by
  decide

/-- Claim C8 (amended): the group index of any question sequence is
`"All"` first, followed by every distinct non-empty group label other
than `"All"`, in the order of that label's first occurrence in the
sequence; the whole index is duplicate-free. -/
theorem group_index_structure (qs : List Question) :
    groupIndex qs
      = "All" :: firstSeen ((qs.map Question.group).filter
          (fun g => !g.isEmpty && g != "All")) ∧
    (groupIndex qs).Nodup := by
  have h1 : groupIndex qs = "All" :: ((qs.map Question.group).filter
      (fun g => !g.isEmpty && g != "All")).foldl addLabel [] := by
    rw [groupIndex, groupIndex_foldl]
  have h2 := foldl_addLabel ((qs.map Question.group).filter
      (fun g => !g.isEmpty && g != "All")) []
  simp only [List.nil_append] at h2
  have h3 : ((qs.map Question.group).filter
        (fun g => !g.isEmpty && g != "All")).filter
        (fun x => !([] : List String).contains x)
      = (qs.map Question.group).filter (fun g => !g.isEmpty && g != "All") := by
    simp
  rw [h3] at h2
  constructor
  · rw [h1, h2]
  · rw [h1, h2]
    refine List.nodup_cons.mpr ⟨?_, nodup_firstSeen _⟩
    intro hmem
    have hm := mem_firstSeen _ _ hmem
    have := List.mem_filter.mp hm
    simp at this

end QuizApp
